import Mathlib

set_option linter.unusedSectionVars false

/-
Verification of the Trend-classifier feature/label pipeline (src/features.py)
against its natural-language specification.

Modelling conventions (shallow embedding of the pandas code):
  * a price series is a `List α` of close prices (the spec guarantees the
    input series has no missing close);
  * a derived column is a `List (PV α)` of the same length, where `PV α` is
    an IEEE-754-like extended value type: `nan` models a missing/NaN cell,
    `pinf`/`ninf` the infinities, `fin x` a finite value.  Arithmetic on
    `PV` mirrors IEEE semantics (nan propagates, x/0 is a signed infinity
    for x ≠ 0, 0/0 is nan, 100/(1+∞) = 0, comparisons with nan are false),
    which is exactly the numpy/pandas behaviour the code relies on;
  * rolling windows follow pandas `rolling(window=w)` with the default
    `min_periods = w`: the output at row i is nan when `i + 1 < w` or when
    the window contains a nan;
  * most transforms are generic in a `LinearOrderedField α` and are run at
    `α = ℚ` (fully computable) except where the code genuinely needs
    `Real.log` / `Real.sqrt`, which are run at `α = ℝ`.
-/

namespace TrendClassifier

/-- Extended IEEE-like scalar: `nan` is the missing sentinel, `pinf`/`ninf`
the infinities, `fin x` a finite value. -/
inductive PV (α : Type) where
  | nan : PV α
  | pinf : PV α
  | ninf : PV α
  | fin : α → PV α
  deriving DecidableEq, Repr

namespace PV

variable {α : Type} [LinearOrderedField α]

instance : Inhabited (PV α) := ⟨nan⟩

/-- IEEE addition on extended values. -/
def add : PV α → PV α → PV α
  | nan, _ => nan
  | _, nan => nan
  | pinf, ninf => nan
  | pinf, _ => pinf
  | ninf, pinf => nan
  | ninf, _ => ninf
  | fin _, pinf => pinf
  | fin _, ninf => ninf
  | fin a, fin b => fin (a + b)

/-- IEEE negation. -/
def neg : PV α → PV α
  | nan => nan
  | pinf => ninf
  | ninf => pinf
  | fin a => fin (-a)

/-- IEEE subtraction. -/
def sub (x y : PV α) : PV α := x.add y.neg

/-- IEEE multiplication (inf * 0 = nan). -/
def mul : PV α → PV α → PV α
  | nan, _ => nan
  | _, nan => nan
  | pinf, pinf => pinf
  | pinf, ninf => ninf
  | ninf, pinf => ninf
  | ninf, ninf => pinf
  | pinf, fin b => if 0 < b then pinf else if b < 0 then ninf else nan
  | ninf, fin b => if 0 < b then ninf else if b < 0 then pinf else nan
  | fin a, pinf => if 0 < a then pinf else if a < 0 then ninf else nan
  | fin a, ninf => if 0 < a then ninf else if a < 0 then pinf else nan
  | fin a, fin b => fin (a * b)

/-- IEEE division: finite/0 is a signed infinity (numpy float semantics),
0/0 is nan, finite/∞ is 0, ∞/∞ is nan. -/
def div : PV α → PV α → PV α
  | nan, _ => nan
  | _, nan => nan
  | pinf, pinf => nan
  | pinf, ninf => nan
  | ninf, pinf => nan
  | ninf, ninf => nan
  | pinf, fin b => if 0 ≤ b then pinf else ninf
  | ninf, fin b => if 0 ≤ b then ninf else pinf
  | fin _, pinf => fin 0
  | fin _, ninf => fin 0
  | fin a, fin b =>
    if b = 0 then (if 0 < a then pinf else if a < 0 then ninf else nan)
    else fin (a / b)

/-- IEEE strict greater-than as a Bool: any comparison involving nan is
false (this is what `NaN > t` evaluates to in numpy/pandas). -/
def gt : PV α → PV α → Bool
  | fin a, fin b => b < a
  | pinf, fin _ => true
  | pinf, ninf => true
  | fin _, ninf => true
  | _, _ => false

/-- Is this a finite value? -/
def isFin : PV α → Bool
  | fin _ => true
  | _ => false

end PV

section Columns

variable {α : Type} [LinearOrderedField α]

/-- Lift a (fully observed) price list into a column of finite cells. -/
def finCol (c : List α) : List (PV α) := c.map PV.fin

/-- Sum of a column, IEEE-style (used inside rolling aggregations). -/
def sumPV : List (PV α) → PV α
  | [] => PV.fin 0
  | x :: rest => x.add (sumPV rest)

/-- Product of a column, IEEE-style. -/
def prodPV : List (PV α) → PV α
  | [] => PV.fin 1
  | x :: rest => x.mul (prodPV rest)

/-- Does the column contain a nan cell? -/
def hasNan (l : List (PV α)) : Bool := l.any fun v => v = PV.nan

/-- The rolling window of width `w` ending at row `i`: cells
`xs[i+1-w], …, xs[i]` (pandas `rolling(window=w)` geometry). -/
def windowAt (w i : Nat) (xs : List (PV α)) : List (PV α) :=
  (List.range w).map fun k => xs.getD (i + 1 - w + k) PV.nan

/-- pandas `rolling(window=w).agg(f)` with the default `min_periods = w`:
row `i` is nan while the window does not fit (`i + 1 < w`); the aggregator
itself yields nan when the window contains a nan cell. -/
def roll (f : List (PV α) → PV α) (w : Nat) (xs : List (PV α)) : List (PV α) :=
  (List.range xs.length).map fun i =>
    if w ≤ i + 1 then f (windowAt w i xs) else PV.nan

/-- `rolling(w).mean()` aggregator: nan if the window has a nan cell
(min_periods not met), otherwise the window sum divided by `w`. -/
def aggMean (w : Nat) (l : List (PV α)) : PV α :=
  if hasNan l then PV.nan else (sumPV l).div (PV.fin (w : α))

/-- `rolling(w).apply(lambda x: np.prod(x) - 1)` aggregator. -/
def aggProdMinusOne (l : List (PV α)) : PV α :=
  if hasNan l then PV.nan else (prodPV l).sub (PV.fin 1)

/-- Finite parts of a column (meaningful when every cell is finite). -/
def finVals (l : List (PV α)) : List α :=
  l.map fun v => match v with | PV.fin a => a | _ => (0 : α)

/-- `rolling(w).std()` aggregator with the pandas default `ddof = 1`:
nan if the window has a non-finite cell or fewer than 2 observations
(`nobs ≤ ddof` yields NaN in pandas); otherwise the square root of the
sum-of-squares form of the unbiased sample variance, which is the
computational form pandas uses. `sq` is the square-root primitive
(instantiated with `Real.sqrt`). -/
def aggStd (sq : α → α) (w : Nat) (l : List (PV α)) : PV α :=
  if l.any fun v => ! v.isFin then PV.nan
  else if w ≤ 1 then PV.nan
  else
    PV.fin (sq ((((finVals l).map fun x => x ^ 2).sum -
      ((finVals l).sum) ^ 2 / (w : α)) / ((w : α) - 1)))

/-- `Series.rolling(window=w).mean()`. -/
def rollingMean (w : Nat) (xs : List (PV α)) : List (PV α) := roll (aggMean w) w xs

/-- `Series.pct_change()`: row 0 is nan, row i is `x[i]/x[i-1] - 1`. -/
def pctChange (xs : List (PV α)) : List (PV α) :=
  (List.range xs.length).map fun i =>
    if i = 0 then PV.nan
    else ((xs.getD i PV.nan).div (xs.getD (i - 1) PV.nan)).sub (PV.fin 1)

/-- `Series.diff()`: row 0 is nan, row i is `x[i] - x[i-1]`. -/
def diffCol (xs : List (PV α)) : List (PV α) :=
  (List.range xs.length).map fun i =>
    if i = 0 then PV.nan
    else (xs.getD i PV.nan).sub (xs.getD (i - 1) PV.nan)

/-- `Series.shift(-p)`: row i reads row `i + p`, nan past the end. -/
def shiftNeg (p : Nat) (xs : List (PV α)) : List (PV α) :=
  (List.range xs.length).map fun i => xs.getD (i + p) PV.nan

/-- Pointwise binary operation on two aligned columns. -/
def zipPV (h : PV α → PV α → PV α) (xs ys : List (PV α)) : List (PV α) :=
  (List.range (min xs.length ys.length)).map fun i =>
    h (xs.getD i PV.nan) (ys.getD i PV.nan)

/-- `Series.clip(lower=0)`: nan stays nan, finite values are clamped
from below, -∞ becomes 0. -/
def clipLower0 : PV α → PV α
  | PV.nan => PV.nan
  | PV.pinf => PV.pinf
  | PV.ninf => PV.fin 0
  | PV.fin a => PV.fin (max a 0)

/-- `Series.clip(upper=0)`. -/
def clipUpper0 : PV α → PV α
  | PV.nan => PV.nan
  | PV.pinf => PV.fin 0
  | PV.ninf => PV.ninf
  | PV.fin a => PV.fin (min a 0)

/-- `np.log` lifted to extended values; `f` gives the logarithm of a
positive finite value (instantiated with `Real.log`; kept as a parameter
where only the nan/sign structure of `np.log` matters, as the value of the
logarithm on positive arguments never influences those claims).
`np.log` maps nan to nan, +∞ to +∞, 0 to -∞ and negatives (and -∞) to nan. -/
def nplogWith (f : α → PV α) : PV α → PV α
  | PV.nan => PV.nan
  | PV.pinf => PV.pinf
  | PV.ninf => PV.nan
  | PV.fin x => if 0 < x then f x else if x = 0 then PV.ninf else PV.nan

end Columns

section Transforms

variable {α : Type} [LinearOrderedField α]

/-- `add_MA` (features.py): the MA10 and MA50 columns, i.e. rolling means
of the close prices with windows 10 and 50. -/
def add_MA (c : List α) : List (PV α) × List (PV α) :=
  (rollingMean 10 (finCol c), rollingMean 50 (finCol c))

/-- The adjusted exponentially weighted mean recursion used by pandas
`ewm(span).mean()` (adjust=True, the default): numerator and denominator
are decayed by `b = 1 - α` and refreshed with the new observation, and the
output is their ratio. -/
def ewmAux (b : α) : List α → α → α → List α
  | [], _, _ => []
  | x :: rest, num, den =>
    ((x + b * num) / (1 + b * den)) :: ewmAux b rest (x + b * num) (1 + b * den)

/-- `add_EMA` (features.py): `Close.ewm(span=period).mean()` with
`α = 2/(span+1)`, pandas default `adjust=True`, `min_periods=0`. -/
def add_EMA (c : List α) (span : Nat) : List (PV α) :=
  (ewmAux (1 - 2 / ((span : α) + 1)) c 0 0).map PV.fin

/-- `add_returns` (features.py): the Return column (`pct_change`) and the
Log Return column (`np.log(1 + Return)`). -/
def add_returns (logF : α → PV α) (c : List α) : List (PV α) × List (PV α) :=
  let ret := pctChange (finCol c)
  (ret, ret.map fun v => nplogWith logF ((PV.fin 1).add v))

/-- `add_volatility` (features.py): rolling std (ddof = 1) of the daily
returns over `window` rows. -/
def add_volatility (sq : α → α) (c : List α) (w : Nat) : List (PV α) :=
  roll (aggStd sq w) w (pctChange (finCol c))

/-- `add_distances` (features.py): `(Close - avg) / avg` against a rolling
MA and an EMA. -/
def add_distances (c : List α) (madist emadist : Nat) :
    List (PV α) × List (PV α) :=
  let ma := rollingMean madist (finCol c)
  let ema := add_EMA c emadist
  (zipPV (fun x a => (x.sub a).div a) (finCol c) ma,
   zipPV (fun x a => (x.sub a).div a) (finCol c) ema)

/-- `add_cumulated_returns` (features.py):
`(1 + returns).rolling(period).apply(lambda x: np.prod(x) - 1)`. -/
def add_cumulated_returns (c : List α) (period : Nat) : List (PV α) :=
  roll aggProdMinusOne period ((pctChange (finCol c)).map fun v => (PV.fin 1).add v)

/-- The `rs = avg_gain / avg_loss` intermediate of `add_rsi`
(features.py): gains are `diff().clip(lower=0)`, losses are
`-diff().clip(upper=0)`, both averaged over a rolling window. -/
def rsCol (c : List α) (period : Nat) : List (PV α) :=
  let delta := diffCol (finCol c)
  let gain := delta.map clipLower0
  let loss := delta.map fun v => (clipUpper0 v).neg
  zipPV PV.div (rollingMean period gain) (rollingMean period loss)

/-- `add_rsi` (features.py): `RSI = 100 - 100 / (1 + rs)`. -/
def add_rsi (c : List α) (period : Nat) : List (PV α) :=
  (rsCol c period).map fun r =>
    (PV.fin 100).sub ((PV.fin 100).div ((PV.fin 1).add r))

/-- The per-row labelling step of `add_target` (features.py):
`"Bullish" if r > goalreturn else "Non-Bullish"`; a nan forward return
compares false and therefore falls into the `else` branch. -/
def trendLabel (goal : α) (r : PV α) : String :=
  if r.gt (PV.fin goal) then "Bullish" else "Non-Bullish"

/-- `add_target` (features.py): the Trend column.  The forward cumulated
return is `Close.shift(-period)/Close - 1`, or
`np.log(Close.shift(-period)/Close)` when `logreturn` is set, and every
row is mapped through `trendLabel`. -/
def add_target (c : List α) (period : Nat) (goal : α) (logF : α → PV α)
    (logreturn : Bool) : List String :=
  let ratio := zipPV PV.div (shiftNeg period (finCol c)) (finCol c)
  let fut := if logreturn then ratio.map (nplogWith logF)
             else ratio.map fun v => v.sub (PV.fin 1)
  fut.map (trendLabel goal)

/-- `add_target_ma_cross` (features.py): the Golden_Cross column,
`(ma_short > ma_long).map({True: "Bullish", False: "Non-Bullish"})`.
There is no parameter validation in the source; every row receives one of
the two labels (a nan comparison is False). -/
def add_target_ma_cross (c : List α) (short_window long_window : Nat) :
    List String :=
  let maS := rollingMean short_window (finCol c)
  let maL := rollingMean long_window (finCol c)
  (List.range (min maS.length maL.length)).map fun i =>
    if (maS.getD i PV.nan).gt (maL.getD i PV.nan) then "Bullish"
    else "Non-Bullish"

/-- Arithmetic mean of the close prices in the window of width `w` ending
at row `i` — the spec-side reading of `simple_moving_average`. -/
def meanSlice (c : List α) (w i : Nat) : α :=
  (((c.drop (i + 1 - w)).take w).sum) / (w : α)

end Transforms

/-- The synthetic end-to-end series of the spec: close prices
`100, 101, …, 160` (n = 60 days beyond the first). -/
def series61 : List ℚ := (List.range 61).map fun k => (100 : ℚ) + k

section RealSide

/-- `add_returns` run at `ℝ` with the genuine `Real.log` as the model of
`np.log` on positive arguments. -/
noncomputable def add_returnsR (c : List ℝ) : List (PV ℝ) × List (PV ℝ) :=
  add_returns (fun x => PV.fin (Real.log x)) c

/-- `add_volatility` run at `ℝ` with the genuine `Real.sqrt`. -/
noncomputable def add_volatilityR (c : List ℝ) (w : Nat) : List (PV ℝ) :=
  add_volatility Real.sqrt c w

/-- Spec-side unbiased sample standard deviation of a list of reals:
the square root of the mean-centred sum of squares over `n - 1`. -/
noncomputable def sampleStd (l : List ℝ) : ℝ :=
  Real.sqrt (((l.map fun x => (x - l.sum / l.length) ^ 2).sum) /
    ((l.length : ℝ) - 1))

/-- The simple returns at rows `i-w+1 .. i` (written with the index
arithmetic `i + 1 - w + k`, which equals `i - w + 1 + k` whenever the
window fits): entry `k` is `close[m]/close[m-1] - 1` for `m = i+1-w+k`. -/
noncomputable def retWindow (c : List ℝ) (w i : Nat) : List ℝ :=
  (List.range w).map fun k =>
    c.getD (i + 1 - w + k) 0 / c.getD (i + 1 - w + k - 1) 0 - 1

end RealSide

section Frames

/-- A cell of a pandas DataFrame: a numeric value or a string label. -/
inductive Cell where
  | num : PV ℚ → Cell
  | str : String → Cell
  deriving DecidableEq, Repr

/-- A DataFrame: named columns in insertion order. -/
abbrev Frame : Type := List (String × List Cell)

/-- The store of live DataFrames; a Python variable holds an index into
it.  `df.copy()` appends a fresh frame (pandas copies deeply by default),
`df[name] = col` mutates the frame at an index in place. -/
abbrev Heap : Type := List Frame

/-- Read a column of a frame by name (empty if absent). -/
def getCol (f : Frame) (name : String) : List Cell :=
  match f.find? (fun p => p.1 == name) with
  | some p => p.2
  | none => []

/-- `df[name] = col`: replace the column in place if present (keeping its
position), append it otherwise — pandas assignment semantics. -/
def setCol (f : Frame) (name : String) (col : List Cell) : Frame :=
  if f.any fun p => p.1 == name then
    f.map fun p => if p.1 == name then (name, col) else p
  else f ++ [(name, col)]

/-- The Close prices of a frame, as rationals.  The input series is
assumed fully observed (spec: no missing close); non-numeric or
non-finite cells read as 0, a modelling default the theorems never
exercise. -/
def closes (f : Frame) : List ℚ :=
  (getCol f "Close").map fun cell =>
    match cell with
    | Cell.num (PV.fin q) => q
    | _ => 0

/-- Lift a numeric column into frame cells. -/
def numCol (l : List (PV ℚ)) : List Cell := l.map Cell.num

/-- Lift a label column into frame cells. -/
def strCol (l : List String) : List Cell := l.map Cell.str

/-- The common imperative shape of every transform in features.py:
`df = df.copy()` (allocate a fresh frame with the same contents), then a
sequence of `df[name] = column` in-place assignments on the fresh frame,
then return the reference to the fresh frame.  `newcols` computes the
assigned columns from the copied frame, exactly as the function bodies
read `df['Close']` after the copy (the one column a body reads back
after writing it — `Return` inside `add_returns` — holds exactly the
value just assigned, so computing both columns from the copy is
value-identical to the source order of operations). -/
def applyImp (newcols : Frame → List (String × List Cell)) (h : Heap)
    (r : Nat) : Heap × Nat :=
  ((newcols (h.getD r [])).foldl
    (fun acc p => acc.set h.length (setCol (acc.getD h.length []) p.1 p.2))
    (h ++ [h.getD r []]), h.length)

/-- Columns assigned by `add_MA`. -/
def MA_cols (f : Frame) : List (String × List Cell) :=
  [("MA10", numCol (add_MA (closes f)).1),
   ("MA50", numCol (add_MA (closes f)).2)]

/-- Columns assigned by `add_EMA`. -/
def EMA_cols (period : Nat) (f : Frame) : List (String × List Cell) :=
  [("EMA" ++ toString period, numCol (add_EMA (closes f) period))]

/-- Columns assigned by `add_returns` (`logF` models `np.log` on positive
finite arguments; the frame effect does not depend on it). -/
def returns_cols (logF : ℚ → PV ℚ) (f : Frame) :
    List (String × List Cell) :=
  [("Return", numCol (add_returns logF (closes f)).1),
   ("Log Return", numCol (add_returns logF (closes f)).2)]

/-- Columns assigned by `add_volatility` (`sq` models the square root). -/
def volatility_cols (sq : ℚ → ℚ) (w : Nat) (f : Frame) :
    List (String × List Cell) :=
  [("Volatility", numCol (add_volatility sq (closes f) w))]

/-- Columns assigned by `add_distances`. -/
def distances_cols (madist emadist : Nat) (f : Frame) :
    List (String × List Cell) :=
  [("Distance_MA" ++ toString madist,
      numCol (add_distances (closes f) madist emadist).1),
   ("Distance_EMA" ++ toString emadist,
      numCol (add_distances (closes f) madist emadist).2)]

/-- Columns assigned by `add_cumulated_returns`. -/
def cumulated_cols (period : Nat) (f : Frame) :
    List (String × List Cell) :=
  [("Cumulated_Return_" ++ toString period ++ "d",
      numCol (add_cumulated_returns (closes f) period))]

/-- Columns assigned by `add_rsi`. -/
def rsi_cols (period : Nat) (f : Frame) : List (String × List Cell) :=
  [("RSI" ++ toString period, numCol (add_rsi (closes f) period))]

/-- Columns assigned by `add_target`. -/
def target_cols (period : Nat) (goal : ℚ) (logF : ℚ → PV ℚ)
    (logreturn : Bool) (f : Frame) : List (String × List Cell) :=
  [("Trend", strCol (add_target (closes f) period goal logF logreturn))]

/-- Columns assigned by `add_target_ma_cross`. -/
def cross_cols (s l : Nat) (f : Frame) : List (String × List Cell) :=
  [("Golden_Cross", strCol (add_target_ma_cross (closes f) s l))]

/-- `add_MA` as a heap program. -/
def add_MA_imp : Heap → Nat → Heap × Nat := applyImp MA_cols

/-- `add_EMA` as a heap program. -/
def add_EMA_imp (period : Nat) : Heap → Nat → Heap × Nat :=
  applyImp (EMA_cols period)

/-- `add_returns` as a heap program. -/
def add_returns_imp (logF : ℚ → PV ℚ) : Heap → Nat → Heap × Nat :=
  applyImp (returns_cols logF)

/-- `add_volatility` as a heap program. -/
def add_volatility_imp (sq : ℚ → ℚ) (w : Nat) : Heap → Nat → Heap × Nat :=
  applyImp (volatility_cols sq w)

/-- `add_distances` as a heap program. -/
def add_distances_imp (madist emadist : Nat) : Heap → Nat → Heap × Nat :=
  applyImp (distances_cols madist emadist)

/-- `add_cumulated_returns` as a heap program. -/
def add_cumulated_returns_imp (period : Nat) : Heap → Nat → Heap × Nat :=
  applyImp (cumulated_cols period)

/-- `add_rsi` as a heap program. -/
def add_rsi_imp (period : Nat) : Heap → Nat → Heap × Nat :=
  applyImp (rsi_cols period)

/-- `add_target` as a heap program. -/
def add_target_imp (period : Nat) (goal : ℚ) (logF : ℚ → PV ℚ)
    (logreturn : Bool) : Heap → Nat → Heap × Nat :=
  applyImp (target_cols period goal logF logreturn)

/-- `add_target_ma_cross` as a heap program. -/
def add_target_ma_cross_imp (s l : Nat) : Heap → Nat → Heap × Nat :=
  applyImp (cross_cols s l)

/-- Sequential composition of transform bodies, each reading the frame
produced by the previous one (`df = add_X(df)` rebinding). -/
def chainImp (fs : List (Frame → List (String × List Cell))) (h : Heap)
    (r : Nat) : Heap × Nat :=
  fs.foldl (fun s nc => applyImp nc s.1 s.2) (h, r)

/-- `add_all_features` as a heap program: `df = df.copy()` (an assignment
-free copy) followed by the seven feature transforms with the source's
default parameters. -/
def add_all_features_imp (logF : ℚ → PV ℚ) (sq : ℚ → ℚ) :
    Heap → Nat → Heap × Nat :=
  chainImp [fun _ => [], MA_cols, EMA_cols 20, returns_cols logF,
    volatility_cols sq 20, distances_cols 50 20, cumulated_cols 5,
    rsi_cols 14]

/-- A one-frame test heap holding a two-row Close series. -/
def testHeap : Heap :=
  [[("Close", [Cell.num (PV.fin 1), Cell.num (PV.fin 2)])]]

end Frames

namespace PV

variable {α : Type} [LinearOrderedField α]

@[simp] theorem add_fin_fin (a b : α) : add (fin a) (fin b) = fin (a + b) := rfl
@[simp] theorem add_nan_left (x : PV α) : add nan x = nan := by cases x <;> rfl
@[simp] theorem add_fin_nan (a : α) : add (fin a) nan = nan := rfl
@[simp] theorem add_fin_pinf (a : α) : add (fin a) pinf = pinf := rfl
@[simp] theorem add_pinf_fin (a : α) : add pinf (fin a) = pinf := rfl
@[simp] theorem neg_fin (a : α) : neg (fin a) = fin (-a) := rfl
@[simp] theorem sub_fin_fin (a b : α) : sub (fin a) (fin b) = fin (a + -b) := rfl
@[simp] theorem sub_nan_left (x : PV α) : sub nan x = nan := by cases x <;> rfl
@[simp] theorem mul_fin_fin (a b : α) : mul (fin a) (fin b) = fin (a * b) := rfl
@[simp] theorem div_nan_left (x : PV α) : div nan x = nan := by cases x <;> rfl
@[simp] theorem div_fin_nan (a : α) : div (fin a) nan = nan := rfl
@[simp] theorem div_fin_pinf (a : α) : div (fin a) pinf = fin 0 := rfl
@[simp] theorem gt_nan_left (x : PV α) : gt nan x = false := rfl
@[simp] theorem gt_nan_right (x : PV α) : gt x nan = false := by cases x <;> rfl
@[simp] theorem gt_fin_fin (a b : α) : gt (fin a) (fin b) = decide (b < a) := rfl
@[simp] theorem gt_fin_nan (a : α) : gt (fin a) nan = false := rfl
@[simp] theorem gt_nan_fin (a : α) : gt nan (fin a) = false := rfl

theorem div_fin_fin_of_ne_zero {b : α} (a : α) (hb : b ≠ 0) :
    div (fin a) (fin b) = fin (a / b) := by
  simp [div, hb]

theorem div_fin_zero_of_pos {a : α} (ha : 0 < a) :
    div (fin a) (fin 0) = pinf := by
  simp [div, ha]

end PV

section AccessLemmas

variable {α : Type} [LinearOrderedField α] {β : Type}

theorem getElem?_rangeMap (g : Nat → β) {n i : Nat} (h : i < n) :
    ((List.range n).map g)[i]? = some (g i) := by
  simp [List.getElem?_map, List.getElem?_range h]

theorem getD_of_getElem?_some {l : List β} {i : Nat} {a d : β}
    (h : l[i]? = some a) : l.getD i d = a := by
  simp [List.getD_eq_getElem?_getD, h]

theorem getD_of_ge {l : List β} {i : Nat} (d : β) (h : l.length ≤ i) :
    l.getD i d = d := by
  simp [List.getD_eq_getElem?_getD, List.getElem?_eq_none h]

theorem getD_rangeMap (g : Nat → β) {n i : Nat} (d : β) (h : i < n) :
    ((List.range n).map g).getD i d = g i :=
  getD_of_getElem?_some (getElem?_rangeMap g h)

@[simp] theorem finCol_length (c : List α) : (finCol c).length = c.length := by
  simp [finCol]

theorem finCol_getD {c : List α} {i : Nat} (h : i < c.length) :
    (finCol c).getD i PV.nan = PV.fin (c.getD i 0) := by
  simp [finCol, List.getD_eq_getElem?_getD, List.getElem?_map,
    List.getElem?_eq_getElem h]

theorem finCol_getD_of_ge {c : List α} {i : Nat} (h : c.length ≤ i) :
    (finCol c).getD i PV.nan = PV.nan :=
  getD_of_ge _ (by simpa using h)

@[simp] theorem roll_length (f : List (PV α) → PV α) (w : Nat)
    (xs : List (PV α)) : (roll f w xs).length = xs.length := by
  simp [roll]

theorem roll_getElem? (f : List (PV α) → PV α) {w i : Nat} {xs : List (PV α)}
    (h : i < xs.length) :
    (roll f w xs)[i]? =
      some (if w ≤ i + 1 then f (windowAt w i xs) else PV.nan) :=
  getElem?_rangeMap _ h

@[simp] theorem rollingMean_length (w : Nat) (xs : List (PV α)) :
    (rollingMean w xs).length = xs.length := roll_length _ _ _

@[simp] theorem pctChange_length (xs : List (PV α)) :
    (pctChange xs).length = xs.length := by
  simp [pctChange]

theorem pctChange_getElem? {xs : List (PV α)} {i : Nat} (h : i < xs.length) :
    (pctChange xs)[i]? =
      some (if i = 0 then PV.nan
        else ((xs.getD i PV.nan).div (xs.getD (i - 1) PV.nan)).sub (PV.fin 1)) :=
  getElem?_rangeMap _ h

@[simp] theorem diffCol_length (xs : List (PV α)) :
    (diffCol xs).length = xs.length := by
  simp [diffCol]

theorem diffCol_getElem? {xs : List (PV α)} {i : Nat} (h : i < xs.length) :
    (diffCol xs)[i]? =
      some (if i = 0 then PV.nan
        else (xs.getD i PV.nan).sub (xs.getD (i - 1) PV.nan)) :=
  getElem?_rangeMap _ h

@[simp] theorem shiftNeg_length (p : Nat) (xs : List (PV α)) :
    (shiftNeg p xs).length = xs.length := by
  simp [shiftNeg]

theorem shiftNeg_getElem? {p i : Nat} {xs : List (PV α)} (h : i < xs.length) :
    (shiftNeg p xs)[i]? = some (xs.getD (i + p) PV.nan) :=
  getElem?_rangeMap _ h

@[simp] theorem zipPV_length (h : PV α → PV α → PV α) (xs ys : List (PV α)) :
    (zipPV h xs ys).length = min xs.length ys.length := by
  simp [zipPV]

theorem zipPV_getElem? {h : PV α → PV α → PV α} {xs ys : List (PV α)} {i : Nat}
    (hi : i < min xs.length ys.length) :
    (zipPV h xs ys)[i]? = some (h (xs.getD i PV.nan) (ys.getD i PV.nan)) :=
  getElem?_rangeMap _ hi

theorem sumPV_map_fin (l : List α) : sumPV (l.map PV.fin) = PV.fin l.sum := by
  induction l with
  | nil => rfl
  | cons x rest ih => simp [sumPV, ih]

theorem prodPV_map_fin (l : List α) : prodPV (l.map PV.fin) = PV.fin l.prod := by
  induction l with
  | nil => rfl
  | cons x rest ih => simp [prodPV, ih]

theorem hasNan_map_fin (l : List α) : hasNan (l.map PV.fin) = false := by
  simp [hasNan, List.any_map, Function.comp]

/-- A rolling window all of whose cells are finite. -/
theorem windowAt_eq_map_fin {xs : List (PV α)} {w i : Nat} (g : Nat → α)
    (hcell : ∀ k, k < w → xs.getD (i + 1 - w + k) PV.nan = PV.fin (g k)) :
    windowAt w i xs = (List.range w).map fun k => PV.fin (g k) := by
  unfold windowAt
  refine List.map_congr_left ?_
  intro k hk
  exact hcell k (List.mem_range.1 hk)

theorem aggMean_map_fin (g : Nat → α) {w : Nat} (hw : 1 ≤ w) :
    aggMean w ((List.range w).map fun k => PV.fin (g k)) =
      PV.fin (((List.range w).map g).sum / (w : α)) := by
  have hmap : ((List.range w).map fun k => PV.fin (g k)) =
      ((List.range w).map g).map PV.fin := by simp [List.map_map]
  have hw0 : ((w : α)) ≠ 0 := Nat.cast_ne_zero.2 (by omega)
  rw [aggMean, hmap, hasNan_map_fin, sumPV_map_fin]
  simp [PV.div_fin_fin_of_ne_zero _ hw0]

theorem aggProdMinusOne_map_fin (g : Nat → α) (w : Nat) :
    aggProdMinusOne ((List.range w).map fun k => PV.fin (g k)) =
      PV.fin (((List.range w).map g).prod - 1) := by
  have hmap : ((List.range w).map fun k => PV.fin (g k)) =
      ((List.range w).map g).map PV.fin := by simp [List.map_map]
  rw [aggProdMinusOne, hmap, hasNan_map_fin, prodPV_map_fin]
  simp [sub_eq_add_neg]

/-- A slice of a list written as an indexed range map. -/
theorem drop_take_eq_rangeMap (cs : List α) (d w : Nat)
    (h : d + w ≤ cs.length) :
    (cs.drop d).take w = (List.range w).map fun k => cs.getD (d + k) 0 := by
  apply List.ext_getElem?
  intro k
  by_cases hk : k < w
  · have hdk : d + k < cs.length := by omega
    have h1 : ((cs.drop d).take w)[k]? = cs[d + k]? := by
      rw [List.getElem?_take_of_lt hk, List.getElem?_drop]
    rw [h1, getElem?_rangeMap _ hk]
    simp [List.getD_eq_getElem?_getD, List.getElem?_eq_getElem hdk]
  · have h1 : ((cs.drop d).take w)[k]? = none := by
      refine List.getElem?_eq_none ?_
      have : ((cs.drop d).take w).length ≤ w := by
        simp [List.length_take]
      omega
    have h2 : (((List.range w).map fun k => cs.getD (d + k) 0))[k]? = none := by
      refine List.getElem?_eq_none ?_
      simp
      omega
    rw [h1, h2]

/-- Rolling mean of a fully-observed price column: nan while the window
does not fit, the arithmetic slice mean afterwards. -/
theorem rollingMean_finCol_getElem? (c : List α) {w i : Nat} (hw : 1 ≤ w)
    (hi : i < c.length) :
    (rollingMean w (finCol c))[i]? =
      some (if w ≤ i + 1 then PV.fin (meanSlice c w i) else PV.nan) := by
  have hlen : i < (finCol c).length := by simpa using hi
  rw [rollingMean, roll_getElem? _ hlen]
  by_cases hwi : w ≤ i + 1
  · have hcell : ∀ k, k < w →
        (finCol c).getD (i + 1 - w + k) PV.nan =
          PV.fin (c.getD (i + 1 - w + k) 0) := by
      intro k hk
      exact finCol_getD (by omega)
    rw [windowAt_eq_map_fin _ hcell, aggMean_map_fin _ hw]
    have hslice : (c.drop (i + 1 - w)).take w =
        (List.range w).map fun k => c.getD (i + 1 - w + k) 0 :=
      drop_take_eq_rangeMap c _ w (by omega)
    simp only [hwi, if_true, meanSlice, hslice]
  · simp [hwi]

@[simp] theorem add_target_ma_cross_length (c : List α) (s l : Nat) :
    (add_target_ma_cross c s l).length = c.length := by
  simp [add_target_ma_cross]

theorem add_target_ma_cross_getElem? {c : List α} {s l i : Nat}
    (hi : i < c.length) :
    (add_target_ma_cross c s l)[i]? =
      some (if ((rollingMean s (finCol c)).getD i PV.nan).gt
              ((rollingMean l (finCol c)).getD i PV.nan)
            then "Bullish" else "Non-Bullish") := by
  unfold add_target_ma_cross
  exact getElem?_rangeMap _ (by simpa using hi)

theorem getD_map_of_lt {β γ : Type} {f : β → γ} {l : List β} {m : Nat}
    (h : m < l.length) (d : γ) (d' : β) :
    (l.map f).getD m d = f (l.getD m d') := by
  simp [List.getD_eq_getElem?_getD, List.getElem?_map,
    List.getElem?_eq_getElem h]

theorem getD_pos_of_forall_pos {cs : List α} (hpos : ∀ x ∈ cs, 0 < x) {j : Nat}
    (hj : j < cs.length) : 0 < cs.getD j 0 := by
  have hc : cs.getD j 0 = cs[j] :=
    getD_of_getElem?_some (List.getElem?_eq_getElem hj)
  rw [hc]
  exact hpos _ (List.getElem_mem hj)

/-- Rolling mean at a row whose entire window is finite. -/
theorem rollingMean_getElem?_of_window_fin {xs : List (PV α)} {w i : Nat}
    (hw : 1 ≤ w) (hi : i < xs.length) (hwi : w ≤ i + 1) (g : Nat → α)
    (hcell : ∀ k, k < w → xs.getD (i + 1 - w + k) PV.nan = PV.fin (g k)) :
    (rollingMean w xs)[i]? =
      some (PV.fin (((List.range w).map g).sum / (w : α))) := by
  rw [rollingMean, roll_getElem? _ hi, if_pos hwi,
    windowAt_eq_map_fin _ hcell, aggMean_map_fin _ hw]

/-- The product of consecutive price ratios telescopes. -/
theorem prod_ratio_telescope (cs : List α) (hpos : ∀ x ∈ cs, 0 < x) :
    ∀ (m d : Nat), d + m < cs.length →
      ((List.range m).map fun k => cs.getD (d + k + 1) 0 / cs.getD (d + k) 0).prod
        = cs.getD (d + m) 0 / cs.getD d 0 := by
  intro m
  induction m with
  | zero =>
      intro d h
      simp only [List.range_zero, List.map_nil, List.prod_nil, Nat.add_zero]
      rw [div_self (ne_of_gt (getD_pos_of_forall_pos hpos (by omega)))]
  | succ n ih =>
      intro d h
      show _ = cs.getD (d + n + 1) 0 / cs.getD d 0
      rw [List.range_succ, List.map_append, List.prod_append]
      simp only [List.map_cons, List.map_nil, List.prod_cons, List.prod_nil,
        mul_one]
      rw [ih d (by omega)]
      have h1 : cs.getD (d + n) 0 ≠ 0 :=
        ne_of_gt (getD_pos_of_forall_pos hpos (by omega))
      rw [div_mul_div_cancel₀' h1]

@[simp] theorem ewmAux_length (b : α) :
    ∀ (xs : List α) (n0 d0 : α), (ewmAux b xs n0 d0).length = xs.length := by
  intro xs
  induction xs with
  | nil => intro n0 d0; rfl
  | cons x rest ih =>
      intro n0 d0
      simp [ewmAux, ih]

/-- Closed form of the adjusted EWM recursion: entry `i` is the ratio of
the decayed weighted sum of observations (plus the decayed seed) over the
decayed weight sum. -/
theorem ewmAux_getElem? (b : α) :
    ∀ (xs : List α) (n0 d0 : α) (i : Nat), i < xs.length →
      (ewmAux b xs n0 d0)[i]? = some
        (((∑ j in Finset.range (i + 1), b ^ (i - j) * xs.getD j 0) +
            b ^ (i + 1) * n0) /
         ((∑ k in Finset.range (i + 1), b ^ k) + b ^ (i + 1) * d0)) := by
  intro xs
  induction xs with
  | nil =>
      intro n0 d0 i h
      simp at h
  | cons x rest ih =>
      intro n0 d0 i h
      cases i with
      | zero =>
          simp only [ewmAux, List.getElem?_cons_zero]
          refine congrArg some ?_
          simp [Finset.sum_range_one]
      | succ n =>
          have hlen : n < rest.length := by simpa using h
          simp only [ewmAux, List.getElem?_cons_succ]
          rw [ih (x + b * n0) (1 + b * d0) n hlen]
          refine congrArg some ?_
          have hnum : (∑ j in Finset.range (n + 1), b ^ (n - j) * rest.getD j 0)
                + b ^ (n + 1) * (x + b * n0)
              = (∑ j in Finset.range (n + 1 + 1),
                  b ^ (n + 1 - j) * (x :: rest).getD j 0)
                + b ^ (n + 1 + 1) * n0 := by
            rw [Finset.sum_range_succ'
              (fun j => b ^ (n + 1 - j) * (x :: rest).getD j 0) (n + 1)]
            simp only [List.getD_cons_succ, List.getD_cons_zero,
              Nat.succ_sub_succ, Nat.sub_zero]
            ring
          have hden : (∑ k in Finset.range (n + 1), b ^ k)
                + b ^ (n + 1) * (1 + b * d0)
              = (∑ k in Finset.range (n + 1 + 1), b ^ k)
                + b ^ (n + 1 + 1) * d0 := by
            nth_rewrite 2 [Finset.sum_range_succ]
            ring
          rw [hnum, hden]

end AccessLemmas

section Claims

/-- Claim C7: for every input series and window `w ≥ 1`, the rolling mean
is missing at every row `i < w - 1` and equals the arithmetic mean of
`close[i-w+1..i]` at every row `i ≥ w - 1`; in particular on the series
`100,…,160`, `add_MA` yields `MA10[9] = 104.5` and `MA50` missing at every
row with index `< 49`. -/
theorem sma_rolling_mean_spec :
    (∀ (c : List ℚ) (w i : Nat), 1 ≤ w → i < c.length →
        ((i + 1 < w → (rollingMean w (finCol c))[i]? = some PV.nan) ∧
         (w ≤ i + 1 →
           (rollingMean w (finCol c))[i]? = some (PV.fin (meanSlice c w i))))) ∧
    (add_MA series61).1[9]? = some (PV.fin (209 / 2)) ∧
    (∀ i, i < 49 → (add_MA series61).2[i]? = some PV.nan) := by
  have hgen : ∀ (c : List ℚ) (w i : Nat), 1 ≤ w → i < c.length →
      ((i + 1 < w → (rollingMean w (finCol c))[i]? = some PV.nan) ∧
       (w ≤ i + 1 →
         (rollingMean w (finCol c))[i]? = some (PV.fin (meanSlice c w i)))) := by
    intro c w i hw hi
    constructor
    · intro hlt
      rw [rollingMean_finCol_getElem? c hw hi, if_neg (by omega)]
    · intro hle
      rw [rollingMean_finCol_getElem? c hw hi, if_pos hle]
  refine ⟨hgen, ?_, ?_⟩
  · have hlen : series61.length = 61 := by
      with_unfolding_all decide
    have h61 : (9 : Nat) < series61.length := by omega
    have h9 := (hgen series61 10 9 (by omega) h61).2 (by omega)
    have hval : meanSlice series61 10 9 = 209 / 2 := by
      with_unfolding_all decide
    rw [hval] at h9
    exact h9
  · intro i hi
    have hlen : series61.length = 61 := by
      with_unfolding_all decide
    have h61 : i < series61.length := by omega
    exact (hgen series61 50 i (by omega) h61).1 (by omega)

/-- Witness for C7 at a concrete input. -/
theorem sma_rolling_mean_spec_witness :
    (rollingMean 2 (finCol ([1, 2] : List ℚ)))[1]? =
      some (PV.fin (meanSlice ([1, 2] : List ℚ) 2 1)) :=
  (sma_rolling_mean_spec.1 [1, 2] 2 1 (by decide) (by decide)).2 (by decide)

/-- Counterexample to claim C4 as stated: with `short_window = 1 <
long_window = 2`, row 0 lies before `long_window - 1`, so the claim says
its label is missing; the code labels it `"Non-Bullish"` (the comparison
of a nan moving average is False), and indeed no row of the produced
column is ever missing. -/
theorem ma_cross_early_rows_counterexample :
    (add_target_ma_cross ([1, 2] : List ℚ) 1 2)[0]? = some "Non-Bullish" ∧
    ∀ lab ∈ add_target_ma_cross ([1, 2] : List ℚ) 1 2,
      lab = "Bullish" ∨ lab = "Non-Bullish" := by with_unfolding_all decide

/-- Claim C4, amended: for `1 ≤ short_window < long_window` the crossover
label at row `i` is `"Bullish"` exactly when both averages are defined
(`i ≥ long_window - 1`) and the short mean exceeds the long mean, and
`"Non-Bullish"` otherwise — including every row `i < long_window - 1`,
which is labeled `"Non-Bullish"`, not left missing. -/
theorem ma_cross_label_characterization :
    ∀ (c : List ℚ) (s l i : Nat), 1 ≤ s → s < l → i < c.length →
      (add_target_ma_cross c s l)[i]? =
        some (if l ≤ i + 1 ∧ meanSlice c l i < meanSlice c s i
              then "Bullish" else "Non-Bullish") := by
  intro c s l i hs hsl hi
  rw [add_target_ma_cross_getElem? hi]
  by_cases hli : l ≤ i + 1
  · have hsi : s ≤ i + 1 := by omega
    have hSd : (rollingMean s (finCol c)).getD i PV.nan =
        PV.fin (meanSlice c s i) :=
      getD_of_getElem?_some
        (by rw [rollingMean_finCol_getElem? c (by omega) hi, if_pos hsi])
    have hLd : (rollingMean l (finCol c)).getD i PV.nan =
        PV.fin (meanSlice c l i) :=
      getD_of_getElem?_some
        (by rw [rollingMean_finCol_getElem? c (by omega) hi, if_pos hli])
    rw [hSd, hLd]
    by_cases hc : meanSlice c l i < meanSlice c s i
    · simp [hc, hli]
    · simp [hc, hli]
  · have hLd : (rollingMean l (finCol c)).getD i PV.nan = PV.nan :=
      getD_of_getElem?_some
        (by rw [rollingMean_finCol_getElem? c (by omega) hi, if_neg hli])
    rw [hLd]
    simp [hli]

/-- Witness for C4 at a concrete input. -/
theorem ma_cross_label_characterization_witness :
    (add_target_ma_cross ([1, 2, 3] : List ℚ) 1 2)[2]? =
      some (if 2 ≤ 2 + 1 ∧
              meanSlice ([1, 2, 3] : List ℚ) 2 2 <
                meanSlice ([1, 2, 3] : List ℚ) 1 2
            then "Bullish" else "Non-Bullish") :=
  ma_cross_label_characterization [1, 2, 3] 1 2 2 (by decide) (by decide)
    (by decide)

/-- Counterexample to claim C2 as stated: constructing the crossover
labeler with `short_window = 3 ≥ long_window = 2` raises nothing and
produces a full label column. -/
theorem ma_cross_no_validation_counterexample :
    add_target_ma_cross ([1, 2, 3] : List ℚ) 3 2 =
      ["Non-Bullish", "Non-Bullish", "Non-Bullish"] := by
  with_unfolding_all decide

/-- Claim C2, amended: `add_target_ma_cross` performs no parameter
validation at all; for `short_window ≥ long_window` it still produces a
full label column (one regular label per input row) instead of raising a
ParameterError. -/
theorem ma_cross_produces_column_without_validation :
    ∀ (c : List ℚ) (s l : Nat), l ≤ s →
      (add_target_ma_cross c s l).length = c.length ∧
      ∀ i, i < c.length →
        (add_target_ma_cross c s l)[i]? = some "Bullish" ∨
        (add_target_ma_cross c s l)[i]? = some "Non-Bullish" := by
  intro c s l hls
  refine ⟨add_target_ma_cross_length c s l, ?_⟩
  intro i hi
  rw [add_target_ma_cross_getElem? hi]
  by_cases hb : ((rollingMean s (finCol c)).getD i PV.nan).gt
      ((rollingMean l (finCol c)).getD i PV.nan)
  · left
    rw [if_pos hb]
  · right
    rw [if_neg hb]

/-- Witness for C2 at a concrete input. -/
theorem ma_cross_produces_column_without_validation_witness :
    (add_target_ma_cross ([1, 2] : List ℚ) 2 2).length =
        ([1, 2] : List ℚ).length ∧
      ∀ i, i < ([1, 2] : List ℚ).length →
        (add_target_ma_cross ([1, 2] : List ℚ) 2 2)[i]? = some "Bullish" ∨
        (add_target_ma_cross ([1, 2] : List ℚ) 2 2)[i]? = some "Non-Bullish" :=
  ma_cross_produces_column_without_validation [1, 2] 2 2 (by decide)

/-- Counterexample to claim C1 as stated: with horizon 2 on a 3-row
series, rows 1 and 2 have `i + horizon` past the last index; the claim
says they get a missing label, but the code labels both `"Non-Bullish"`
(`NaN > threshold` is False and the `else` branch fires). -/
theorem add_target_overrun_counterexample :
    (add_target ([1, 2, 3] : List ℚ) 2 (1 / 20) (fun _ => PV.nan) false)[1]? =
        some "Non-Bullish" ∧
    (add_target ([1, 2, 3] : List ℚ) 2 (1 / 20) (fun _ => PV.nan) false)[2]? =
        some "Non-Bullish" := by with_unfolding_all decide

/-- Claim C1, amended: for every series, horizon `p ≥ 1` and threshold,
every row `i` with `i + p` past the last index is assigned the regular
class `"Non-Bullish"` (never a missing label), in both the simple- and
log-return modes and for any model of the logarithm on positive values. -/
theorem add_target_overrun_labels_non_bullish :
    ∀ (c : List ℚ) (p : Nat) (g : ℚ) (logF : ℚ → PV ℚ) (b : Bool) (i : Nat),
      1 ≤ p → i < c.length → c.length ≤ i + p →
      (add_target c p g logF b)[i]? = some "Non-Bullish" := by
  intro c p g logF b i hp hi hover
  have hratio : (zipPV PV.div (shiftNeg p (finCol c)) (finCol c))[i]? =
      some PV.nan := by
    rw [zipPV_getElem? (by simp; omega)]
    have h1 : (shiftNeg p (finCol c)).getD i PV.nan =
        (finCol c).getD (i + p) PV.nan :=
      getD_of_getElem?_some (shiftNeg_getElem? (by simpa using hi))
    rw [h1, finCol_getD_of_ge (by omega)]
    simp
  have key : ∀ (f : PV ℚ → PV ℚ), f PV.nan = PV.nan →
      (((zipPV PV.div (shiftNeg p (finCol c)) (finCol c)).map f).map
        (trendLabel g))[i]? = some "Non-Bullish" := by
    intro f hf
    rw [List.getElem?_map, List.getElem?_map, hratio]
    simp [hf, trendLabel]
  cases b
  · simpa [add_target] using key (fun v => v.sub (PV.fin 1)) (by simp)
  · simpa [add_target] using key (nplogWith logF) rfl

/-- Witness for C1 (amended) at a concrete input. -/
theorem add_target_overrun_labels_non_bullish_witness :
    (add_target ([1, 2] : List ℚ) 1 (1 / 20) (fun _ => PV.nan) false)[1]? =
      some "Non-Bullish" :=
  add_target_overrun_labels_non_bullish [1, 2] 1 (1 / 20) (fun _ => PV.nan)
    false 1 (by decide) (by decide) (by decide)

/-- Counterexample to claim C3 as stated: on the strictly increasing
series `[1, 2, 3]` with period 2, the RSI at row 2 is indeed 100, but the
`rs = avg_gain / avg_loss` intermediate is `+∞` — the pinned value falls
out of unguarded IEEE arithmetic (`100 - 100/(1 + ∞) = 100`), there is no
explicit zero-average-loss guard in the code. -/
theorem rsi_infinite_intermediate_counterexample :
    (rsCol ([1, 2, 3] : List ℚ) 2)[2]? = some PV.pinf ∧
    (add_rsi ([1, 2, 3] : List ℚ) 2)[2]? = some (PV.fin 100) := by
  with_unfolding_all decide

/-- Claim C3, amended: on a strictly increasing series the RSI at every
row with at least `period` prior changes equals 100, but this value is
reached through the unguarded infinite intermediate `rs = +∞`
(avg_gain > 0 divided by avg_loss = 0), not through an explicit guard. -/
theorem rsi_monotone_eq_100_via_inf :
    ∀ (c : List ℚ) (p i : Nat), 1 ≤ p →
      (∀ j, j + 1 < c.length → c.getD j 0 < c.getD (j + 1) 0) →
      p ≤ i → i < c.length →
      (rsCol c p)[i]? = some PV.pinf ∧
      (add_rsi c p)[i]? = some (PV.fin 100) := by
  intro c p i hp hmono hpi hi
  have hdcell : ∀ m, 1 ≤ m → m < c.length →
      (diffCol (finCol c)).getD m PV.nan =
        PV.fin (c.getD m 0 + -(c.getD (m - 1) 0)) := by
    intro m h1 h2
    refine getD_of_getElem?_some ?_
    rw [diffCol_getElem? (by simpa using h2), if_neg (by omega),
      finCol_getD h2, finCol_getD (by omega)]
    simp
  have hdpos : ∀ m, 1 ≤ m → m < c.length →
      0 < c.getD m 0 + -(c.getD (m - 1) 0) := by
    intro m h1 h2
    have hm := hmono (m - 1) (by omega)
    have hm' : m - 1 + 1 = m := by omega
    rw [hm'] at hm
    linarith
  have hgaincell : ∀ k, k < p →
      ((diffCol (finCol c)).map clipLower0).getD (i + 1 - p + k) PV.nan =
        PV.fin (max (c.getD (i + 1 - p + k) 0 +
          -(c.getD (i + 1 - p + k - 1) 0)) 0) := by
    intro k hk
    have hmlt : i + 1 - p + k < c.length := by omega
    have hm1 : 1 ≤ i + 1 - p + k := by omega
    rw [getD_map_of_lt (by simpa using hmlt) PV.nan PV.nan,
      hdcell _ hm1 hmlt]
    rfl
  have hlosscell : ∀ k, k < p →
      ((diffCol (finCol c)).map fun v => (clipUpper0 v).neg).getD
          (i + 1 - p + k) PV.nan =
        PV.fin (-(min (c.getD (i + 1 - p + k) 0 +
          -(c.getD (i + 1 - p + k - 1) 0)) 0)) := by
    intro k hk
    have hmlt : i + 1 - p + k < c.length := by omega
    have hm1 : 1 ≤ i + 1 - p + k := by omega
    rw [getD_map_of_lt (by simpa using hmlt) PV.nan PV.nan,
      hdcell _ hm1 hmlt]
    rfl
  have hG : (rollingMean p ((diffCol (finCol c)).map clipLower0))[i]? =
      some (PV.fin (((List.range p).map fun k =>
        max (c.getD (i + 1 - p + k) 0 +
          -(c.getD (i + 1 - p + k - 1) 0)) 0).sum / (p : ℚ))) :=
    rollingMean_getElem?_of_window_fin hp (by simpa using hi) (by omega) _
      hgaincell
  have hL : (rollingMean p
        ((diffCol (finCol c)).map fun v => (clipUpper0 v).neg))[i]? =
      some (PV.fin (((List.range p).map fun k =>
        -(min (c.getD (i + 1 - p + k) 0 +
          -(c.getD (i + 1 - p + k - 1) 0)) 0)).sum / (p : ℚ))) :=
    rollingMean_getElem?_of_window_fin hp (by simpa using hi) (by omega) _
      hlosscell
  have hsum0 : ((List.range p).map fun k =>
      -(min (c.getD (i + 1 - p + k) 0 +
        -(c.getD (i + 1 - p + k - 1) 0)) 0)).sum = 0 := by
    apply List.sum_eq_zero
    intro x hx
    rcases List.mem_map.1 hx with ⟨k, hk, rfl⟩
    have hk' := List.mem_range.1 hk
    have hδ := hdpos (i + 1 - p + k) (by omega) (by omega)
    rw [min_eq_right (le_of_lt hδ)]
    simp
  have hsumpos : 0 < ((List.range p).map fun k =>
      max (c.getD (i + 1 - p + k) 0 +
        -(c.getD (i + 1 - p + k - 1) 0)) 0).sum := by
    apply List.sum_pos
    · intro x hx
      rcases List.mem_map.1 hx with ⟨k, hk, rfl⟩
      have hk' := List.mem_range.1 hk
      have hδ := hdpos (i + 1 - p + k) (by omega) (by omega)
      exact lt_of_lt_of_le hδ (le_max_left _ _)
    · intro hnil
      have hlen : (((List.range p).map fun k =>
          max (c.getD (i + 1 - p + k) 0 +
            -(c.getD (i + 1 - p + k - 1) 0)) 0)).length = p := by
        simp
      rw [hnil] at hlen
      simp at hlen
      omega
  have hrs : (rsCol c p)[i]? = some PV.pinf := by
    show (zipPV PV.div
      (rollingMean p ((diffCol (finCol c)).map clipLower0))
      (rollingMean p
        ((diffCol (finCol c)).map fun v => (clipUpper0 v).neg)))[i]? =
      some PV.pinf
    rw [zipPV_getElem? (by simp; omega)]
    rw [getD_of_getElem?_some hG, getD_of_getElem?_some hL, hsum0]
    have h0 : (0 : ℚ) / (p : ℚ) = 0 := zero_div _
    rw [h0]
    have hqp : (0 : ℚ) < (p : ℚ) := Nat.cast_pos.2 hp
    exact congrArg some (PV.div_fin_zero_of_pos (div_pos hsumpos hqp))
  refine ⟨hrs, ?_⟩
  show ((rsCol c p).map fun r =>
      (PV.fin 100).sub ((PV.fin 100).div ((PV.fin 1).add r)))[i]? =
    some (PV.fin 100)
  rw [List.getElem?_map, hrs]
  simp

/-- Witness for C3 (amended) at a concrete input. -/
theorem rsi_monotone_eq_100_via_inf_witness :
    (rsCol ([1, 2, 4] : List ℚ) 1)[2]? = some PV.pinf ∧
    (add_rsi ([1, 2, 4] : List ℚ) 1)[2]? = some (PV.fin 100) :=
  rsi_monotone_eq_100_via_inf [1, 2, 4] 1 2 (by decide)
    (by
      intro j hj
      simp only [List.length_cons, List.length_nil] at hj
      have hj2 : j ≤ 1 := by omega
      interval_cases j <;> with_unfolding_all decide)
    (by decide) (by decide)

/-- Counterexample to claim C6 as stated: on `[1, 2, 4]` with period 2,
the cumulated-return value at row 2 is 3, but the claim's formula
`close[2]/close[2-2+1] - 1 = 4/2 - 1 = 1` is not 3 (the window of 2
single-period returns spans 3 prices, so the quotient reaches back to
`close[i-period]`, not `close[i-period+1]`). -/
theorem cumulated_return_telescope_counterexample :
    (add_cumulated_returns ([1, 2, 4] : List ℚ) 2)[2]? =
        some (PV.fin 3) ∧
      ([1, 2, 4] : List ℚ).getD 2 0 / ([1, 2, 4] : List ℚ).getD (2 - 2 + 1) 0
        - 1 ≠ 3 := by
  with_unfolding_all decide

/-- Claim C6, amended: for a series of strictly positive closes and
period `p ≥ 1`, the rolling product of the `p` most recent single-period
returns is missing at rows `i < p` and telescopes to
`close[i]/close[i-p] - 1` (not `close[i]/close[i-p+1] - 1`) at every row
`i ≥ p`. -/
theorem cumulated_return_telescopes :
    ∀ (c : List ℚ) (p i : Nat), (∀ x ∈ c, 0 < x) → 1 ≤ p → i < c.length →
      (i < p → (add_cumulated_returns c p)[i]? = some PV.nan) ∧
      (p ≤ i → (add_cumulated_returns c p)[i]? =
        some (PV.fin (c.getD i 0 / c.getD (i - p) 0 - 1))) := by
  intro c p i hpos hp hi
  have honecell : ∀ m, 1 ≤ m → m < c.length →
      ((pctChange (finCol c)).map fun v => (PV.fin 1).add v).getD m PV.nan =
        PV.fin (c.getD m 0 / c.getD (m - 1) 0) := by
    intro m h1 h2
    rw [getD_map_of_lt (by simpa using h2) PV.nan PV.nan]
    have hcell : (pctChange (finCol c)).getD m PV.nan =
        PV.fin (c.getD m 0 / c.getD (m - 1) 0 + -1) := by
      refine getD_of_getElem?_some ?_
      rw [pctChange_getElem? (by simpa using h2), if_neg (by omega),
        finCol_getD h2, finCol_getD (by omega),
        PV.div_fin_fin_of_ne_zero _
          (ne_of_gt (getD_pos_of_forall_pos hpos (by omega)))]
      simp
    rw [hcell, PV.add_fin_fin]
    ring_nf
  constructor
  · intro hip
    show (roll aggProdMinusOne p
      ((pctChange (finCol c)).map fun v => (PV.fin 1).add v))[i]? =
      some PV.nan
    by_cases hfit : p ≤ i + 1
    · rw [roll_getElem? _ (by simpa using hi), if_pos hfit]
      have hnan0 : ((pctChange (finCol c)).map
          fun v => (PV.fin 1).add v).getD (i + 1 - p + 0) PV.nan = PV.nan := by
        have h0 : i + 1 - p + 0 = 0 := by omega
        rw [h0, getD_map_of_lt (by simp; omega) PV.nan PV.nan]
        have hpc : (pctChange (finCol c)).getD 0 PV.nan = PV.nan := by
          refine getD_of_getElem?_some ?_
          rw [pctChange_getElem? (by simp; omega), if_pos rfl]
        rw [hpc]
        rfl
      have hwin : hasNan (windowAt p i
          ((pctChange (finCol c)).map fun v => (PV.fin 1).add v)) = true := by
        unfold hasNan windowAt
        rw [List.any_eq_true]
        refine ⟨PV.nan, ?_, by simp⟩
        rw [List.mem_map]
        exact ⟨0, List.mem_range.2 (by omega), hnan0⟩
      refine congrArg some ?_
      simp only [aggProdMinusOne, hwin, if_true]
    · rw [roll_getElem? _ (by simpa using hi), if_neg hfit]
  · intro hpi
    show (roll aggProdMinusOne p
      ((pctChange (finCol c)).map fun v => (PV.fin 1).add v))[i]? =
      some (PV.fin (c.getD i 0 / c.getD (i - p) 0 - 1))
    rw [roll_getElem? _ (by simpa using hi), if_pos (by omega)]
    have hcells : ∀ k, k < p →
        ((pctChange (finCol c)).map fun v => (PV.fin 1).add v).getD
            (i + 1 - p + k) PV.nan =
          PV.fin (c.getD (i - p + k + 1) 0 / c.getD (i - p + k) 0) := by
      intro k hk
      have h1 : i + 1 - p + k = i - p + k + 1 := by omega
      have h2 : (i - p + k + 1) - 1 = i - p + k := by omega
      rw [h1, honecell (i - p + k + 1) (by omega) (by omega), h2]
    rw [windowAt_eq_map_fin _ hcells, aggProdMinusOne_map_fin]
    have htel := prod_ratio_telescope c hpos p (i - p) (by omega)
    have hip2 : i - p + p = i := by omega
    rw [hip2] at htel
    rw [htel]

/-- Witness for C6 (amended) at a concrete input. -/
theorem cumulated_return_telescopes_witness :
    (add_cumulated_returns ([1, 2, 4] : List ℚ) 1)[2]? =
      some (PV.fin (([1, 2, 4] : List ℚ).getD 2 0 /
        ([1, 2, 4] : List ℚ).getD (2 - 1) 0 - 1)) :=
  (cumulated_return_telescopes [1, 2, 4] 1 2
    (by with_unfolding_all decide) (by decide) (by decide)).2 (by decide)

/-- Claim C10: for every non-empty series and span `s ≥ 1`, `add_EMA` is
non-missing at every row, equals `close[0]` at row 0, and at row `i`
equals the weighted average of `close[0..i]` with weight
`(1 - a)^(i-j)` on `close[j]`, where `a = 2/(s+1)` (pandas
`adjust=True`: weights renormalized at every row). -/
theorem ema_weighted_average_spec :
    ∀ (c : List ℚ) (s : Nat), 1 ≤ s →
      (∀ i, i < c.length → (add_EMA c s)[i]? = some (PV.fin
        ((∑ j in Finset.range (i + 1),
            (1 - 2 / ((s : ℚ) + 1)) ^ (i - j) * c.getD j 0) /
         (∑ j in Finset.range (i + 1),
            (1 - 2 / ((s : ℚ) + 1)) ^ (i - j))))) ∧
      (0 < c.length → (add_EMA c s)[0]? = some (PV.fin (c.getD 0 0))) ∧
      (∀ i, i < c.length → ∃ q : ℚ, (add_EMA c s)[i]? = some (PV.fin q)) := by
  intro c s hs
  have hform : ∀ i, i < c.length → (add_EMA c s)[i]? = some (PV.fin
      ((∑ j in Finset.range (i + 1),
          (1 - 2 / ((s : ℚ) + 1)) ^ (i - j) * c.getD j 0) /
       (∑ j in Finset.range (i + 1),
          (1 - 2 / ((s : ℚ) + 1)) ^ (i - j)))) := by
    intro i hi
    unfold add_EMA
    rw [List.getElem?_map, ewmAux_getElem? _ c 0 0 i hi]
    refine congrArg some (congrArg PV.fin ?_)
    simp only [mul_zero, add_zero]
    congr 1
    have hrefl := Finset.sum_range_reflect
      (fun k => (1 - 2 / ((s : ℚ) + 1)) ^ k) (i + 1)
    simp only [Nat.add_sub_cancel] at hrefl
    exact hrefl.symm
  refine ⟨hform, ?_, ?_⟩
  · intro h0
    rw [hform 0 h0]
    refine congrArg some (congrArg PV.fin ?_)
    simp [Finset.sum_range_one]
  · intro i hi
    exact ⟨_, hform i hi⟩

/-- Witness for C10 at a concrete input. -/
theorem ema_weighted_average_spec_witness :
    (add_EMA ([1, 2] : List ℚ) 1)[0]? =
      some (PV.fin (([1, 2] : List ℚ).getD 0 0)) :=
  (ema_weighted_average_spec [1, 2] 1 (by decide)).2.1 (by decide)

theorem getD_ne_zero_of_forall {α : Type} [LinearOrderedField α]
    {cs : List α} (h : ∀ x ∈ cs, x ≠ 0) {j : Nat} (hj : j < cs.length) :
    cs.getD j 0 ≠ 0 := by
  have hc : cs.getD j 0 = cs[j] :=
    getD_of_getElem?_some (List.getElem?_eq_getElem hj)
  rw [hc]
  exact h _ (List.getElem_mem hj)

theorem finVals_map_fin {α : Type} [LinearOrderedField α] (l : List α) :
    finVals (l.map PV.fin) = l := by
  induction l with
  | nil => rfl
  | cons x rest ih =>
      simp only [List.map_cons, finVals] at ih ⊢
      rw [ih]

theorem aggStd_map_fin {α : Type} [LinearOrderedField α] (sq : α → α)
    (L : List α) {w : Nat} (hw : 2 ≤ w) :
    aggStd sq w (L.map PV.fin) =
      PV.fin (sq (((L.map fun x => x ^ 2).sum - (L.sum) ^ 2 / (w : α)) /
        ((w : α) - 1))) := by
  have hany : ((L.map PV.fin).any fun v => ! v.isFin) = false := by
    simp [List.any_map, Function.comp, PV.isFin]
  unfold aggStd
  rw [hany, if_neg (by simp), if_neg (by omega), finVals_map_fin]

/-- Expanding the mean-centred sum of squares. -/
theorem sum_sq_dev (l : List ℝ) (m : ℝ) :
    (l.map fun x => (x - m) ^ 2).sum =
      (l.map fun x => x ^ 2).sum - 2 * m * l.sum + l.length * m ^ 2 := by
  induction l with
  | nil => simp
  | cons x rest ih =>
      simp only [List.map_cons, List.sum_cons, List.length_cons, ih]
      push_cast
      ring

/-- The computational (sum-of-squares) form of the centred variance
numerator agrees with the mean-centred form. -/
theorem comp_var_eq (l : List ℝ) (hne : l.length ≠ 0) :
    (l.map fun x => x ^ 2).sum - (l.sum) ^ 2 / (l.length : ℝ) =
      (l.map fun x => (x - l.sum / l.length) ^ 2).sum := by
  rw [sum_sq_dev]
  have hn : (l.length : ℝ) ≠ 0 := Nat.cast_ne_zero.2 hne
  field_simp
  ring

/-- Counterexample to claim C5 as stated: on closes `[1, 0]` the simple
return at row 1 is exactly -1, and the log-return cell is `-∞`
(`np.log(0)`), a defined non-missing value — the claim says it must be
missing whenever the return is `≤ -1`. -/
theorem log_return_neg_one_counterexample :
    (add_returnsR [(1 : ℝ), 0]).2[1]? = some PV.ninf ∧
    (PV.ninf : PV ℝ) ≠ PV.nan := by
  constructor
  · have hq : (pctChange (finCol [(1 : ℝ), 0]))[1]? =
        some (PV.fin ((0 : ℝ) / 1 + -1)) := by
      rw [pctChange_getElem? (by simp), if_neg (by omega),
        finCol_getD (by simp), finCol_getD (by simp)]
      have hv1 : ([(1 : ℝ), 0]).getD 1 0 = 0 := by simp
      have hv0 : ([(1 : ℝ), 0]).getD 0 0 = 1 := by simp
      rw [hv1, hv0, PV.div_fin_fin_of_ne_zero _ one_ne_zero]
      simp
    show ((pctChange (finCol [(1 : ℝ), 0])).map fun v =>
      nplogWith (fun x => PV.fin (Real.log x)) ((PV.fin 1).add v))[1]? =
      some PV.ninf
    rw [List.getElem?_map, hq]
    refine congrArg some ?_
    have hadd : (PV.fin 1).add (PV.fin ((0 : ℝ) / 1 + -1)) = PV.fin 0 := by
      rw [PV.add_fin_fin]
      norm_num
    show nplogWith (fun x => PV.fin (Real.log x))
      ((PV.fin 1).add (PV.fin ((0 : ℝ) / 1 + -1))) = PV.ninf
    rw [hadd]
    simp only [nplogWith]
    rw [if_neg (by norm_num)]
    simp
  · simp

/-- Claim C5, amended: for every series, the Return and Log Return cells
are missing at row 0; at a row `i ≥ 1` with a finite simple return `r`
(previous close nonzero), the log-return is missing when `r < -1`, is the
defined non-missing value `-∞` when `r = -1`, and when `r > -1` equals
`ln(1 + r)` with `exp(ln(1 + r)) - 1 = r` exactly. -/
theorem log_return_characterization :
    ∀ (c : List ℝ) (i : Nat), i < c.length →
      (i = 0 → (add_returnsR c).1[i]? = some PV.nan ∧
               (add_returnsR c).2[i]? = some PV.nan) ∧
      (1 ≤ i → c.getD (i - 1) 0 ≠ 0 →
        ((c.getD i 0 / c.getD (i - 1) 0 - 1 < -1 →
           (add_returnsR c).2[i]? = some PV.nan) ∧
         (c.getD i 0 / c.getD (i - 1) 0 - 1 = -1 →
           (add_returnsR c).2[i]? = some PV.ninf) ∧
         (-1 < c.getD i 0 / c.getD (i - 1) 0 - 1 →
           (add_returnsR c).2[i]? = some (PV.fin
             (Real.log (1 + (c.getD i 0 / c.getD (i - 1) 0 - 1)))) ∧
           Real.exp (Real.log (1 + (c.getD i 0 / c.getD (i - 1) 0 - 1))) - 1 =
             c.getD i 0 / c.getD (i - 1) 0 - 1))) := by
  intro c i hi
  constructor
  · intro h0
    subst h0
    have h1 : (pctChange (finCol c))[0]? = some PV.nan := by
      rw [pctChange_getElem? (by simpa using hi), if_pos rfl]
    refine ⟨h1, ?_⟩
    show ((pctChange (finCol c)).map fun v =>
      nplogWith (fun x => PV.fin (Real.log x)) ((PV.fin 1).add v))[0]? =
      some PV.nan
    rw [List.getElem?_map, h1]
    rfl
  · intro h1 hnz
    have hq : (pctChange (finCol c))[i]? =
        some (PV.fin (c.getD i 0 / c.getD (i - 1) 0 + -1)) := by
      rw [pctChange_getElem? (by simpa using hi), if_neg (by omega),
        finCol_getD hi, finCol_getD (by omega),
        PV.div_fin_fin_of_ne_zero _ hnz]
      simp
    set q : ℝ := c.getD i 0 / c.getD (i - 1) 0 with hqdef
    have hlog : (add_returnsR c).2[i]? = some (nplogWith
        (fun x => PV.fin (Real.log x)) (PV.fin q)) := by
      show ((pctChange (finCol c)).map fun v =>
        nplogWith (fun x => PV.fin (Real.log x)) ((PV.fin 1).add v))[i]? = _
      rw [List.getElem?_map, hq]
      refine congrArg some ?_
      simp only [PV.add_fin_fin]
      rw [show (1 : ℝ) + (q + -1) = q from by ring]
    refine ⟨?_, ?_, ?_⟩
    · intro hlt
      have hq0 : q < 0 := by linarith
      rw [hlog]
      refine congrArg some ?_
      simp only [nplogWith]
      rw [if_neg (by linarith), if_neg (by linarith)]
    · intro heq
      have hq0 : q = 0 := by linarith
      rw [hlog]
      refine congrArg some ?_
      simp only [nplogWith]
      rw [if_neg (by simp [hq0]), if_pos hq0]
    · intro hgt
      have hq0 : 0 < q := by linarith
      constructor
      · rw [hlog]
        refine congrArg some ?_
        simp only [nplogWith]
        rw [if_pos hq0, show (1 : ℝ) + (q - 1) = q from by ring]
      · rw [show (1 : ℝ) + (q - 1) = q from by ring, Real.exp_log hq0]

/-- Witness for C5 (amended) at a concrete input. -/
theorem log_return_characterization_witness :
    (add_returnsR [(1 : ℝ), 1]).2[1]? = some (PV.fin
        (Real.log (1 + (([(1 : ℝ), 1]).getD 1 0 /
          ([(1 : ℝ), 1]).getD 0 0 - 1)))) ∧
    Real.exp (Real.log (1 + (([(1 : ℝ), 1]).getD 1 0 /
        ([(1 : ℝ), 1]).getD 0 0 - 1))) - 1 =
      ([(1 : ℝ), 1]).getD 1 0 / ([(1 : ℝ), 1]).getD 0 0 - 1 :=
  ((log_return_characterization [(1 : ℝ), 1] 1 (by simp)).2 (by omega)
    (by simp)).2.2 (by norm_num)

/-- Counterexample to claim C8 as stated: with `window = 1` (a window
`w ≥ 1` the claim admits) on closes `[1, 2, 4]`, the volatility at row 2
is missing — pandas yields NaN whenever the observation count does not
exceed `ddof = 1` — whereas the claim asserts it equals the (defined)
sample standard deviation of the single return in the window. -/
theorem volatility_window_one_counterexample :
    (add_volatilityR [(1 : ℝ), 2, 4] 1)[2]? = some PV.nan ∧
    PV.fin (sampleStd (retWindow [(1 : ℝ), 2, 4] 1 2)) ≠ PV.nan := by
  constructor
  · have hcell : (pctChange (finCol [(1 : ℝ), 2, 4]))[2]? =
        some (PV.fin (((4 : ℝ)) / 2 + -1)) := by
      rw [pctChange_getElem? (by simp), if_neg (by omega),
        finCol_getD (by simp), finCol_getD (by simp)]
      have hv2 : ([(1 : ℝ), 2, 4]).getD 2 0 = 4 := by simp
      have hv1 : ([(1 : ℝ), 2, 4]).getD 1 0 = 2 := by simp
      rw [hv2, hv1, PV.div_fin_fin_of_ne_zero _ two_ne_zero]
      simp
    show (roll (aggStd Real.sqrt 1) 1
      (pctChange (finCol [(1 : ℝ), 2, 4])))[2]? = some PV.nan
    rw [roll_getElem? _ (by simp), if_pos (by omega)]
    refine congrArg some ?_
    have hwin : windowAt 1 2 (pctChange (finCol [(1 : ℝ), 2, 4])) =
        [PV.fin (((4 : ℝ)) / 2 + -1)] := by
      unfold windowAt
      rw [show List.range 1 = [0] from rfl, List.map_cons, List.map_nil]
      rw [show (2 : Nat) + 1 - 1 + 0 = 2 from by omega]
      rw [getD_of_getElem?_some hcell]
    rw [hwin]
    simp [aggStd, PV.isFin]
  · simp

/-- Claim C8, amended: for a series of nonzero closes, the volatility
column is missing at every row `i < w`, and for `w ≥ 2` equals the
unbiased (`n-1`) sample standard deviation of the `w` simple returns at
rows `i-w+1..i` at every row `i ≥ w`; for `w = 1` every row is missing
(the `n-1` estimator has no observations to spare, pandas emits NaN). -/
theorem volatility_sample_std_spec :
    ∀ (c : List ℝ) (w : Nat), 1 ≤ w → (∀ x ∈ c, x ≠ 0) →
      (∀ i, i < c.length → i < w →
        (add_volatilityR c w)[i]? = some PV.nan) ∧
      (w = 1 → ∀ i, i < c.length →
        (add_volatilityR c w)[i]? = some PV.nan) ∧
      (2 ≤ w → ∀ i, w ≤ i → i < c.length →
        (add_volatilityR c w)[i]? =
          some (PV.fin (sampleStd (retWindow c w i)))) := by
  intro c w hw hnz
  have hpcell : ∀ m, 1 ≤ m → m < c.length →
      (pctChange (finCol c)).getD m PV.nan =
        PV.fin (c.getD m 0 / c.getD (m - 1) 0 + -1) := by
    intro m h1 h2
    refine getD_of_getElem?_some ?_
    rw [pctChange_getElem? (by simpa using h2), if_neg (by omega),
      finCol_getD h2, finCol_getD (by omega),
      PV.div_fin_fin_of_ne_zero _ (getD_ne_zero_of_forall hnz (by omega))]
    simp
  have hpc0 : ∀ i, i < c.length →
      (pctChange (finCol c)).getD 0 PV.nan = PV.nan := by
    intro i hi
    refine getD_of_getElem?_some ?_
    rw [pctChange_getElem? (by simp; omega), if_pos rfl]
  refine ⟨?_, ?_, ?_⟩
  · intro i hi hiw
    show (roll (aggStd Real.sqrt w) w (pctChange (finCol c)))[i]? =
      some PV.nan
    by_cases hfit : w ≤ i + 1
    · rw [roll_getElem? _ (by simpa using hi), if_pos hfit]
      refine congrArg some ?_
      have hmem : PV.nan ∈ windowAt w i (pctChange (finCol c)) := by
        unfold windowAt
        rw [List.mem_map]
        refine ⟨0, List.mem_range.2 (by omega), ?_⟩
        rw [show i + 1 - w + 0 = 0 from by omega, hpc0 i hi]
      have hany : ((windowAt w i (pctChange (finCol c))).any
          fun v => ! v.isFin) = true := by
        rw [List.any_eq_true]
        exact ⟨PV.nan, hmem, rfl⟩
      simp [aggStd, hany]
    · rw [roll_getElem? _ (by simpa using hi), if_neg hfit]
  · intro hw1 i hi
    subst hw1
    show (roll (aggStd Real.sqrt 1) 1 (pctChange (finCol c)))[i]? =
      some PV.nan
    rw [roll_getElem? _ (by simpa using hi), if_pos (by omega)]
    refine congrArg some ?_
    by_cases hi0 : i = 0
    · subst hi0
      have hmem : PV.nan ∈ windowAt 1 0 (pctChange (finCol c)) := by
        unfold windowAt
        rw [List.mem_map]
        refine ⟨0, List.mem_range.2 (by omega), ?_⟩
        rw [show 0 + 1 - 1 + 0 = 0 from by omega, hpc0 0 hi]
      have hany : ((windowAt 1 0 (pctChange (finCol c))).any
          fun v => ! v.isFin) = true := by
        rw [List.any_eq_true]
        exact ⟨PV.nan, hmem, rfl⟩
      simp [aggStd, hany]
    · have hwin : windowAt 1 i (pctChange (finCol c)) =
          [PV.fin (c.getD i 0 / c.getD (i - 1) 0 + -1)] := by
        unfold windowAt
        rw [show List.range 1 = [0] from rfl, List.map_cons, List.map_nil,
          show i + 1 - 1 + 0 = i from by omega, hpcell i (by omega) hi]
      rw [hwin]
      simp [aggStd, PV.isFin]
  · intro hw2 i hwi hi
    show (roll (aggStd Real.sqrt w) w (pctChange (finCol c)))[i]? =
      some (PV.fin (sampleStd (retWindow c w i)))
    rw [roll_getElem? _ (by simpa using hi), if_pos (by omega)]
    have hcells : ∀ k, k < w →
        (pctChange (finCol c)).getD (i + 1 - w + k) PV.nan =
          PV.fin (c.getD (i + 1 - w + k) 0 /
            c.getD (i + 1 - w + k - 1) 0 + -1) := by
      intro k hk
      exact hpcell _ (by omega) (by omega)
    rw [windowAt_eq_map_fin _ hcells]
    have hmm : ((List.range w).map fun k => PV.fin
        (c.getD (i + 1 - w + k) 0 / c.getD (i + 1 - w + k - 1) 0 + -1)) =
        ((List.range w).map fun k =>
          c.getD (i + 1 - w + k) 0 /
            c.getD (i + 1 - w + k - 1) 0 + -1).map PV.fin := by
      rw [List.map_map]
      rfl
    rw [hmm, aggStd_map_fin Real.sqrt _ hw2]
    refine congrArg some (congrArg PV.fin ?_)
    have hLret : retWindow c w i = (List.range w).map fun k =>
        c.getD (i + 1 - w + k) 0 / c.getD (i + 1 - w + k - 1) 0 + -1 := by
      unfold retWindow
      simp only [sub_eq_add_neg]
    rw [hLret]
    set L : List ℝ := (List.range w).map fun k =>
      c.getD (i + 1 - w + k) 0 / c.getD (i + 1 - w + k - 1) 0 + -1 with hL
    have hlen : L.length = w := by
      rw [hL]
      simp
    unfold sampleStd
    congr 1
    have hdev := comp_var_eq L (by omega)
    rw [hlen] at hdev
    rw [hlen, ← hdev]

/-- Witness for C8 (amended) at a concrete input. -/
theorem volatility_sample_std_spec_witness :
    (add_volatilityR [(1 : ℝ), 2, 4] 2)[2]? =
      some (PV.fin (sampleStd (retWindow [(1 : ℝ), 2, 4] 2 2))) :=
  (volatility_sample_std_spec [(1 : ℝ), 2, 4] 2 (by omega)
    (by norm_num)).2.2 (by omega) 2 (by omega) (by simp)

theorem foldl_setCol_length (r1 : Nat) :
    ∀ (l : List (String × List Cell)) (hh : Heap),
      (l.foldl (fun acc p =>
        acc.set r1 (setCol (acc.getD r1 []) p.1 p.2)) hh).length =
        hh.length := by
  intro l
  induction l with
  | nil => intro hh; rfl
  | cons p rest ih =>
      intro hh
      rw [List.foldl_cons, ih, List.length_set]

theorem foldl_setCol_getElem? {r1 r' : Nat} (hne : r' ≠ r1) :
    ∀ (l : List (String × List Cell)) (hh : Heap),
      (l.foldl (fun acc p =>
        acc.set r1 (setCol (acc.getD r1 []) p.1 p.2)) hh)[r']? = hh[r']? := by
  intro l
  induction l with
  | nil => intro hh; rfl
  | cons p rest ih =>
      intro hh
      rw [List.foldl_cons, ih, List.getElem?_set_ne (by omega)]

theorem applyImp_length (newcols : Frame → List (String × List Cell))
    (h : Heap) (r : Nat) :
    (applyImp newcols h r).1.length = h.length + 1 := by
  unfold applyImp
  rw [foldl_setCol_length, List.length_append]
  rfl

/-- The fundamental frame condition: a transform body touches only the
fresh copy, so every pre-existing heap cell — in particular the input
frame — is untouched. -/
theorem applyImp_getElem? (newcols : Frame → List (String × List Cell))
    {h : Heap} {r' : Nat} (h' : r' < h.length) (r0 : Nat) :
    (applyImp newcols h r0).1[r']? = h[r']? := by
  unfold applyImp
  rw [foldl_setCol_getElem? (by omega), List.getElem?_append_left h']

theorem chainImp_getElem? :
    ∀ (fs : List (Frame → List (String × List Cell))) (h : Heap)
      (r r' : Nat), r' < h.length → (chainImp fs h r).1[r']? = h[r']? := by
  intro fs
  induction fs with
  | nil =>
      intro h r r' hlt
      rfl
  | cons nc rest ih =>
      intro h r r' hlt
      show (chainImp rest (applyImp nc h r).1 (applyImp nc h r).2).1[r']? =
        h[r']?
      rw [ih (applyImp nc h r).1 (applyImp nc h r).2 r'
        (by rw [applyImp_length]; omega)]
      exact applyImp_getElem? nc hlt r

/-- Claim C9: every feature transform and label constructor, and
`add_all_features`, leaves its input DataFrame unchanged: in the heap
model, the cell holding the input frame is identical (same columns, same
cells) after the call, every `df[...] = ...` assignment having targeted
only the fresh `df.copy()`.  The numeric primitives `np.log` and the
square root are abstracted as parameters — the frame effect does not
depend on them. -/
theorem transforms_do_not_mutate_input :
    ∀ (logF : ℚ → PV ℚ) (sq : ℚ → ℚ) (ep vw md ed cp rp tp ss ls : Nat)
      (g : ℚ) (b : Bool) (h : Heap) (r : Nat), r < h.length →
      (add_MA_imp h r).1[r]? = h[r]? ∧
      (add_EMA_imp ep h r).1[r]? = h[r]? ∧
      (add_returns_imp logF h r).1[r]? = h[r]? ∧
      (add_volatility_imp sq vw h r).1[r]? = h[r]? ∧
      (add_distances_imp md ed h r).1[r]? = h[r]? ∧
      (add_cumulated_returns_imp cp h r).1[r]? = h[r]? ∧
      (add_rsi_imp rp h r).1[r]? = h[r]? ∧
      (add_target_imp tp g logF b h r).1[r]? = h[r]? ∧
      (add_target_ma_cross_imp ss ls h r).1[r]? = h[r]? ∧
      (add_all_features_imp logF sq h r).1[r]? = h[r]? := by
  intro logF sq ep vw md ed cp rp tp ss ls g b h r hr
  refine ⟨applyImp_getElem? _ hr r, applyImp_getElem? _ hr r,
    applyImp_getElem? _ hr r, applyImp_getElem? _ hr r,
    applyImp_getElem? _ hr r, applyImp_getElem? _ hr r,
    applyImp_getElem? _ hr r, applyImp_getElem? _ hr r,
    applyImp_getElem? _ hr r, chainImp_getElem? _ h r r hr⟩

/-- Witness for C9 at a concrete input.  The abstracted log and square
root are instantiated with constant dummies; the theorem holds for every
instantiation. -/
theorem transforms_do_not_mutate_input_witness :
    (add_MA_imp testHeap 0).1[0]? = testHeap[0]? ∧
    (add_EMA_imp 20 testHeap 0).1[0]? = testHeap[0]? ∧
    (add_returns_imp (fun _ => PV.nan) testHeap 0).1[0]? = testHeap[0]? ∧
    (add_volatility_imp (fun _ => 0) 20 testHeap 0).1[0]? = testHeap[0]? ∧
    (add_distances_imp 50 20 testHeap 0).1[0]? = testHeap[0]? ∧
    (add_cumulated_returns_imp 5 testHeap 0).1[0]? = testHeap[0]? ∧
    (add_rsi_imp 14 testHeap 0).1[0]? = testHeap[0]? ∧
    (add_target_imp 60 (1 / 20) (fun _ => PV.nan) false testHeap 0).1[0]? =
      testHeap[0]? ∧
    (add_target_ma_cross_imp 50 200 testHeap 0).1[0]? = testHeap[0]? ∧
    (add_all_features_imp (fun _ => PV.nan) (fun _ => 0) testHeap 0).1[0]? =
      testHeap[0]? :=
  transforms_do_not_mutate_input (fun _ => PV.nan) (fun _ => 0) 20 20 50 20 5
    14 60 50 200 (1 / 20) false testHeap 0 (by decide)

end Claims

end TrendClassifier
